import Mathlib

/-
Verification of the qmd retrieval/fusion pipeline against its specification.

The TypeScript source is shallowly embedded: strings become `List Char` or
`String`, JS numbers become `ℚ` (the claims under study concern order and
algebraic relations that are exact in rational arithmetic), database tables
become lists of row structures, and the external storage/model endpoints
become explicit oracle parameters.  Components whose implementation files are
not part of the provided sources (only their tests and callers are) are
modelled from the specification; each such definition carries a doc comment
beginning `Modelled from the spec:`.
-/

set_option maxRecDepth 20000

namespace QMD

/-! ## Lexical score normalization (SearchCommand.normalizeBM25,
DocumentRepository.normalizeBM25)

Source (src/unnamed/part_003 lines 151-155, src/unnamed/part_008 lines
244-251):

    private normalizeBM25(rawScore: number): number {
      const normalized = 1 / (1 + Math.abs(rawScore) / 10);
      return Math.round(normalized * 1000) / 1000;
    }
-/

/-- JS `Math.round`: round to the nearest integer, halves toward `+∞`. -/
def jsRound (q : ℚ) : ℤ := ⌊q + 1 / 2⌋

/-- `normalizeBM25` from the source: the intermediate
`normalized = 1 / (1 + |raw| / 10)` is rounded to three decimal places by
`Math.round(normalized * 1000) / 1000`. -/
def normalizeBM25 (rawScore : ℚ) : ℚ :=
  (jsRound (1 / (1 + |rawScore| / 10) * 1000) : ℚ) / 1000

example : normalizeBM25 (-1) = 909 / 1000 := by
  norm_num [normalizeBM25, jsRound]
example : normalizeBM25 (-100) = 91 / 1000 := by
  norm_num [normalizeBM25, jsRound]
example : normalizeBM25 0 = 1 := by
  norm_num [normalizeBM25, jsRound]
example : normalizeBM25 (-20000) = 0 := by
  norm_num [normalizeBM25, jsRound]

lemma jsRound_mono {a b : ℚ} (h : a ≤ b) : jsRound a ≤ jsRound b :=
  Int.floor_le_floor (by linarith)

lemma normalized_pos (r : ℚ) : 0 < 1 / (1 + |r| / 10) := by positivity

lemma normalized_le_one (r : ℚ) : 1 / (1 + |r| / 10) ≤ 1 := by
  rw [div_le_one (by positivity)]
  have := abs_nonneg r
  linarith

/-- C1 counterexample: the code maps more-negative (stronger-match) raw scores
to *smaller* normalized values, and rounding can reach exactly `0`, which is
outside `(0, 1]`. -/
theorem normalizeBM25_claim_false :
    normalizeBM25 (-100) < normalizeBM25 (-1) ∧ normalizeBM25 (-20000) = 0 := by
  constructor
  · norm_num [normalizeBM25, jsRound]
  · norm_num [normalizeBM25, jsRound]

/-- C1 (amended): normalization is antitone in the engine's better-match
direction — if raw score `A` is more negative than `B` (both nonpositive,
per the engine's convention), then `normalizeBM25 A ≤ normalizeBM25 B` —
and every output lies in the closed interval `[0, 1]`. -/
theorem normalizeBM25_antitone_bounded :
    (∀ A B : ℚ, A ≤ B → B ≤ 0 → normalizeBM25 A ≤ normalizeBM25 B) ∧
    (∀ raw : ℚ, 0 ≤ normalizeBM25 raw ∧ normalizeBM25 raw ≤ 1) := by
  constructor
  · intro A B hAB hB
    unfold normalizeBM25
    have hA : A ≤ 0 := le_trans hAB hB
    have habs : |B| ≤ |A| := by
      rw [abs_of_nonpos hA, abs_of_nonpos hB]; linarith
    have hdenB : (0 : ℚ) < 1 + |B| / 10 := by positivity
    have hfrac : 1 / (1 + |A| / 10) ≤ 1 / (1 + |B| / 10) :=
      one_div_le_one_div_of_le hdenB (by linarith)
    have hmul : 1 / (1 + |A| / 10) * 1000 ≤ 1 / (1 + |B| / 10) * 1000 := by
      nlinarith
    have := jsRound_mono hmul
    have hcast : (jsRound (1 / (1 + |A| / 10) * 1000) : ℚ) ≤
        (jsRound (1 / (1 + |B| / 10) * 1000) : ℚ) := by exact_mod_cast this
    exact div_le_div_of_nonneg_right hcast (by norm_num)
  · intro raw
    unfold normalizeBM25
    have hpos := normalized_pos raw
    have hle := normalized_le_one raw
    constructor
    · have h0 : (0 : ℤ) ≤ jsRound (1 / (1 + |raw| / 10) * 1000) := by
        apply Int.floor_nonneg.mpr
        nlinarith
      have : (0 : ℚ) ≤ (jsRound (1 / (1 + |raw| / 10) * 1000) : ℚ) := by
        exact_mod_cast h0
      positivity
    · have h1 : jsRound (1 / (1 + |raw| / 10) * 1000) ≤ 1000 := by
        have hr : jsRound (1 / (1 + |raw| / 10) * 1000) ≤ jsRound 1000 := by
          apply jsRound_mono; nlinarith
        have he : jsRound (1000 : ℚ) = 1000 := by
          rw [jsRound, Int.floor_eq_iff] ; norm_num
        rw [he] at hr
        exact hr
      have : (jsRound (1 / (1 + |raw| / 10) * 1000) : ℚ) ≤ 1000 := by
        exact_mod_cast h1
      rw [div_le_one (by norm_num : (0:ℚ) < 1000)]
      exact this

/-- Witness for the amended C1 theorem at concrete inputs. -/
theorem normalizeBM25_antitone_bounded_witness :
    (normalizeBM25 (-100) ≤ normalizeBM25 (-1)) ∧
    (0 ≤ normalizeBM25 (-7) ∧ normalizeBM25 (-7) ≤ 1) :=
  ⟨normalizeBM25_antitone_bounded.1 (-100) (-1) (by norm_num) (by norm_num),
   normalizeBM25_antitone_bounded.2 (-7)⟩

/-! ## Chunker (chunkDocument)

`chunkDocument` lives in `src/services/embedding.ts`, which is not among the
provided sources — only its tests (src/unnamed/part_002 lines 298-349) are.
It is therefore modelled from the spec (§4.2) and checked below against every
concrete behaviour the tests pin down. -/

/-- Modelled from the spec: the chunking loop of `chunkDocument`
(src/services/embedding.ts, file absent from the sources).  Slice `i` starts
at `start = i·(W−O)` and spans `W` characters (or the remainder); the loop
terminates once a slice would fully cover the document tail.  The `fuel`
argument is only a structural termination bound; `chunkDocument` supplies
enough of it for the recursion never to cut off when `O < W`. -/
def chunkFrom (text : List Char) (W O : Nat) : Nat → Nat → List (List Char × Nat)
  | 0, _ => []
  | fuel + 1, start =>
    if text.length ≤ start + W then [((text.drop start).take W, start)]
    else ((text.drop start).take W, start) :: chunkFrom text W O fuel (start + (W - O))

/-- Modelled from the spec: `chunkDocument(text, W, O)` — the ordered list of
(text-slice, start-offset) pairs. -/
def chunkDocument (text : List Char) (W O : Nat) : List (List Char × Nat) :=
  chunkFrom text W O (text.length + 1) 0

example : chunkDocument "0123456789".data 5 2 =
    [("01234".data, 0), ("34567".data, 3), ("6789".data, 6)] := by decide
example : chunkDocument "Short text".data 1000 200 = [("Short text".data, 0)] := by
  decide
example : (chunkDocument (List.replicate 500 'a') 200 50).map Prod.snd =
    [0, 150, 300] := by decide
example : (chunkDocument (List.replicate 1000 'a') 1000 200).length = 1 := by decide

lemma chunkFrom_ne_nil (text : List Char) (W O fuel start : Nat) (h : fuel ≠ 0) :
    chunkFrom text W O fuel start ≠ [] := by
  cases fuel with
  | zero => exact absurd rfl h
  | succ fuel =>
    rw [chunkFrom]
    split
    · simp
    · simp

lemma chunkFrom_snd_get? (text : List Char) (W O : Nat) (fuel : Nat) :
    ∀ (start j : Nat), j < (chunkFrom text W O fuel start).length →
      ((chunkFrom text W O fuel start).map Prod.snd).get? j =
        some (start + j * (W - O)) := by
  induction fuel with
  | zero => intro start j hj; simp [chunkFrom] at hj
  | succ fuel ih =>
    intro start j hj
    rw [chunkFrom] at hj ⊢
    by_cases h : text.length ≤ start + W
    · rw [if_pos h] at hj ⊢
      have hj0 : j = 0 := by
        simp at hj
        omega
      subst hj0
      simp
    · rw [if_neg h] at hj ⊢
      cases j with
      | zero => simp
      | succ j =>
        have hlt : j < (chunkFrom text W O fuel (start + (W - O))).length := by
          simpa using hj
        have := ih (start + (W - O)) j hlt
        simp only [List.map_cons, List.get?_cons_succ]
        rw [this, Nat.succ_mul]
        congr 1
        omega

lemma chunkDocument_head? (text : List Char) (W O : Nat) :
    (chunkDocument text W O).head? = some (text.take W, 0) := by
  rw [chunkDocument, chunkFrom]
  by_cases h : text.length ≤ 0 + W
  · rw [if_pos h]; simp
  · rw [if_neg h]; simp

lemma chunkDocument_length_eq_one_iff (text : List Char) (W O : Nat) (hO : O < W) :
    (chunkDocument text W O).length = 1 ↔ text.length ≤ W := by
  rw [chunkDocument, chunkFrom]
  by_cases h : text.length ≤ 0 + W
  · rw [if_pos h]
    simp
    omega
  · rw [if_neg h]
    have h2 : text.length ≠ 0 := by omega
    constructor
    · intro hlen
      exfalso
      have hne : chunkFrom text W O text.length (W - O) ≠ [] :=
        chunkFrom_ne_nil text W O text.length (W - O) h2
      simp at hlen
      exact hne hlen
    · intro hle
      exact absurd hle (by omega)

/-- C2: for every text and chunking parameters `O < W`, chunk 0 starts at
offset 0 and spans `min(W, L)` characters, chunk `j` starts at offset
`j·(W−O)`, exactly one chunk is produced iff `L ≤ W`, and a 1500-character
text with `W = 1000`, `O = 200` yields exactly the chunks at offsets 0 and
800. -/
theorem chunkDocument_spec (text : List Char) (W O j : Nat) (hO : O < W) :
    (chunkDocument text W O).head? = some (text.take W, 0) ∧
    (text.take W).length = min W text.length ∧
    (j < (chunkDocument text W O).length →
      ((chunkDocument text W O).map Prod.snd).get? j = some (j * (W - O))) ∧
    ((chunkDocument text W O).length = 1 ↔ text.length ≤ W) ∧
    (chunkDocument (List.replicate 1500 'a') 1000 200).map Prod.snd = [0, 800] := by
  refine ⟨chunkDocument_head? text W O, List.length_take _ _, ?_, ?_, ?_⟩
  · intro hj
    have := chunkFrom_snd_get? text W O (text.length + 1) 0 j hj
    simpa [chunkDocument] using this
  · exact chunkDocument_length_eq_one_iff text W O hO
  · decide

/-- Witness for C2 at the concrete input of the chunker unit test
(`'0123456789'`, window 5, overlap 2, chunk index 1). -/
theorem chunkDocument_spec_witness :
    (2 < 5 ∧ 1 < (chunkDocument "0123456789".data 5 2).length) ∧
    ((chunkDocument "0123456789".data 5 2).map Prod.snd).get? 1 = some (1 * (5 - 2)) :=
  ⟨⟨by decide, by decide⟩,
    (chunkDocument_spec "0123456789".data 5 2 1 (by decide)).2.2.1 (by decide)⟩

/-! ## Reranker scoring

`rerank` lives in `src/services/reranking.ts`, absent from the sources; only
its tests (src/src/services/reranking.test.ts) are provided. -/

/-- Modelled from the spec: a parsed relevance judgment — the model's leading
response token classified against the affirmative pattern, together with the
exponentiated log-probability of that token (a linear confidence in (0,1]).
-/
structure Judgment where
  affirmative : Bool
  confidence : ℚ
  deriving DecidableEq

/-- Modelled from the spec: the reranker's final score — the confidence
itself for affirmative judgments, confidence × 0.3 for negative ones. -/
def rerankScore (j : Judgment) : ℚ :=
  if j.affirmative then j.confidence else j.confidence * (3 / 10)

/-- C3: at confidence `c ∈ (0,1]` an affirmative judgment scores exactly `c`,
a negative judgment scores exactly `c × 0.3 < c`; a negative judgment never
outscores a positive one of equal confidence. -/
theorem rerankScore_spec (c : ℚ) (h0 : 0 < c) (_h1 : c ≤ 1) :
    rerankScore ⟨true, c⟩ = c ∧
    rerankScore ⟨false, c⟩ = c * (3 / 10) ∧
    rerankScore ⟨false, c⟩ < rerankScore ⟨true, c⟩ := by
  refine ⟨rfl, rfl, ?_⟩
  show c * (3 / 10) < c
  linarith

/-- Witness for C3 at confidence 1/2. -/
theorem rerankScore_spec_witness :
    ((0 : ℚ) < 1 / 2 ∧ (1 : ℚ) / 2 ≤ 1) ∧
    (rerankScore ⟨true, 1 / 2⟩ = 1 / 2 ∧
     rerankScore ⟨false, 1 / 2⟩ = 1 / 2 * (3 / 10) ∧
     rerankScore ⟨false, 1 / 2⟩ < rerankScore ⟨true, 1 / 2⟩) :=
  ⟨⟨by norm_num, by norm_num⟩, rerankScore_spec (1 / 2) (by norm_num) (by norm_num)⟩

/-! ## Model Client retry-with-provisioning

`getEmbedding` lives in `src/services/ollama.ts`, absent from the sources;
only its tests (src/unnamed/part_002 lines 151-198) are provided. -/

/-- One response of the model endpoint to an embed/completion call. -/
inductive ModelResp where
  | success (v : List ℚ)
  | notFound
  | failure
  deriving DecidableEq

/-- Outcome of a Model Client call as seen by its caller. -/
inductive EmbedOutcome where
  | ok (v : List ℚ)
  | apiError
  | modelFailed (model : String)
  deriving DecidableEq

/-- Modelled from the spec: the retry state machine of `getEmbedding`
(attempt → on "model not found" → provision once → retry once → fail).
`first` and `retry` are the endpoint's responses to the first and (if made)
second attempt, `provisionOk` the outcome of the single provisioning attempt.
The result carries (outcome, number of embed calls, number of provisioning
attempts). -/
def getEmbedding (model : String) (first : ModelResp) (provisionOk : Bool)
    (retry : ModelResp) : EmbedOutcome × Nat × Nat :=
  match first with
  | .success v => (.ok v, 1, 0)
  | .failure => (.apiError, 1, 0)
  | .notFound =>
    if provisionOk then
      match retry with
      | .success v => (.ok v, 2, 1)
      | .notFound => (.modelFailed model, 2, 1)
      | .failure => (.modelFailed model, 2, 1)
    else (.modelFailed model, 1, 1)

/-- C4: on a "model not found" first response the client provisions exactly
once and retries exactly once (two embed calls total), propagating an error
identifying the failing model if the retry also fails; any other non-2xx
failure propagates immediately with zero retries and zero provisioning. -/
theorem getEmbedding_spec (model : String) (v : List ℚ) (provisionOk : Bool)
    (r : ModelResp) :
    getEmbedding model (.success v) provisionOk r = (.ok v, 1, 0) ∧
    getEmbedding model .failure provisionOk r = (.apiError, 1, 0) ∧
    getEmbedding model .notFound true (.success v) = (.ok v, 2, 1) ∧
    getEmbedding model .notFound true .notFound = (.modelFailed model, 2, 1) ∧
    getEmbedding model .notFound true .failure = (.modelFailed model, 2, 1) ∧
    getEmbedding model .notFound false r = (.modelFailed model, 1, 1) :=
  ⟨rfl, rfl, rfl, rfl, rfl, rfl⟩

/-! ## Rank Fusion (Reciprocal Rank Fusion)

The fusion implementation is not among the provided sources; the algorithm is
modelled from the spec (§4.6) and docs/user/architecture.md lines 213-222
(`score = 1/(rank_A + k) + 1/(rank_B + k)`). -/

/-- Modelled from the spec: reciprocal-rank contribution of one ranked list —
`1/(rank + k)` when the candidate occurs at 1-based `rank`, `0` when absent.
-/
def rrfContrib (k : ℚ) : Option ℕ → ℚ
  | none => 0
  | some rank => 1 / (rank + k)

/-- Modelled from the spec: fused RRF score of a candidate, given its
(optional) 1-based rank in the lexical and vector lists. -/
def rrfScore (k : ℚ) (rankLex rankVec : Option ℕ) : ℚ :=
  rrfContrib k rankLex + rrfContrib k rankVec

lemma rrfContrib_some_pos (k : ℚ) (hk : 0 < k) (r : ℕ) :
    0 < rrfContrib k (some r) := by
  unfold rrfContrib
  have hr : (0 : ℚ) ≤ (r : ℚ) := by exact_mod_cast Nat.zero_le r
  exact div_pos one_pos (by linarith)

/-- C5: for every damping constant `k > 0`, a candidate present in both
ranked lists scores strictly higher than an otherwise-identical candidate at
the same rank in only one of the lists. -/
theorem rrfScore_both_beats_single (k : ℚ) (hk : 0 < k) (rA rB : ℕ)
    (_hA : 1 ≤ rA) (_hB : 1 ≤ rB) :
    rrfScore k (some rA) (some rB) > rrfScore k (some rA) none ∧
    rrfScore k (some rA) (some rB) > rrfScore k none (some rB) := by
  have h1 := rrfContrib_some_pos k hk rA
  have h2 := rrfContrib_some_pos k hk rB
  unfold rrfScore
  constructor
  · simp only [rrfContrib]
    simp only [rrfContrib] at h2
    linarith
  · simp only [rrfContrib]
    simp only [rrfContrib] at h1
    linarith

/-- Witness for C5 at `k = 1` and both candidates ranked first. -/
theorem rrfScore_both_beats_single_witness :
    ((0 : ℚ) < 1 ∧ 1 ≤ 1 ∧ 1 ≤ 1) ∧
    (rrfScore 1 (some 1) (some 1) > rrfScore 1 (some 1) none ∧
     rrfScore 1 (some 1) (some 1) > rrfScore 1 none (some 1)) :=
  ⟨⟨by norm_num, le_refl 1, le_refl 1⟩,
    rrfScore_both_beats_single 1 (by norm_num) 1 1 (le_refl 1) (le_refl 1)⟩

/-! ## Model-call cache

In the source the cache key is `getCacheKey(url, body)` (src/src/utils/hash.ts
lines 23-28): the SHA-256 of the endpoint URL and the JSON-serialized request
payload — a pure function of the pair, so the cache is modelled as keyed
directly by that (endpoint, payload) pair; for reranking the key is the
(query, candidate-identifier, model) triple.  The caching call wrapper itself
lives in the service files absent from the sources. -/

/-- Modelled from the spec: a cached model call over a key-value cache — a
cache hit short-circuits the network call entirely, a miss performs it once
and stores the response.  Returns (response, updated cache, number of network
calls made). -/
def cachedCall {K R : Type} [DecidableEq K] (cache : List (K × R)) (key : K)
    (fetch : R) : R × List (K × R) × Nat :=
  match cache.find? (fun e => e.1 = key) with
  | some e => (e.2, cache, 0)
  | none => (fetch, (key, fetch) :: cache, 1)

/-- C8: once a response for a key is cached, a subsequent call with the
identical key is answered from the cache — it returns the first call's
response, leaves the cache unchanged, and performs zero network calls. -/
theorem cachedCall_no_reinvoke {K R : Type} [DecidableEq K]
    (cache : List (K × R)) (key : K) (fetch fetch' : R) :
    cachedCall (cachedCall cache key fetch).2.1 key fetch' =
      ((cachedCall cache key fetch).1, (cachedCall cache key fetch).2.1, 0) := by
  unfold cachedCall
  cases hfind : cache.find? (fun e => decide (e.1 = key)) with
  | some e => simp [hfind]
  | none => simp [hfind, List.find?]

/-! ## Document search paths (DocumentRepository.searchFTS / searchVector)

Source: src/unnamed/part_008 lines 76-144.  The storage engine's own query
execution (FTS5 BM25 matching, cosine nearest-neighbour) is an external
capability and enters the model as an oracle parameter; the SQL `WHERE`,
`ORDER BY` and `LIMIT` clauses, the joins and the score post-processing are
modelled from the source. -/

/-- A row of the `documents` table (the fields the search paths read). -/
structure DocRow where
  filepath : String
  display_path : String
  title : String
  body : String
  hash : String
  active : Nat
  deriving DecidableEq

/-- Origin tag of a search result (`'fts'` / `'vec'` in the source). -/
inductive ResultSource where
  | fts
  | vec
  deriving DecidableEq

/-- The `SearchResult` shape produced by the repository search methods. -/
structure SearchResult where
  file : String
  displayPath : String
  title : String
  body : String
  score : ℚ
  source : ResultSource
  chunkPos : Option Nat
  deriving DecidableEq

/-- A row of the `content_vectors` table. -/
structure CVRow where
  hash : String
  seq : Nat
  pos : Nat
  model : String
  deriving DecidableEq

/-- A row of the `vectors_vec` virtual table (`hash_seq TEXT PRIMARY KEY`);
the key string is modelled as its character list. -/
structure VecRow where
  hash_seq : List Char
  embedding : List ℚ
  deriving DecidableEq

/-- The two vector tables together. -/
structure VecStore where
  cv : List CVRow
  vec : List VecRow
  deriving DecidableEq

/-- The decimal character string of a natural number (the JS `${seq}`
interpolation). -/
def natToChars (n : Nat) : List Char :=
  if n = 0 then ['0'] else ((Nat.digits 10 n).reverse.map Nat.digitChar)

/-- The composite key `"hash_seq"` built as `hash + '_' + seq` (source:
`${hash}_${seq}` in VectorRepository.insert and the SQL join condition
`v.hash_seq = cv.hash || '_' || cv.seq`). -/
def hashSeq (hash : String) (seq : Nat) : List Char :=
  hash.data ++ '_' :: natToChars seq

/-- `DocumentRepository.searchFTS`: rows matching the FTS query (`ftsScore`
is the engine's raw BM25 score oracle, `none` = no match) with `active = 1`,
ordered by raw score ascending, limited, then mapped to results with the
normalized score. -/
def searchFTS (docs : List DocRow) (ftsScore : DocRow → Option ℚ)
    (limit : Nat) : List SearchResult :=
  let rows := docs.filterMap (fun d =>
    match ftsScore d with
    | some s => if d.active = 1 then some (d, s) else none
    | none => none)
  let sorted := rows.insertionSort (fun a b => a.2 ≤ b.2)
  (sorted.take limit).map (fun r =>
    { file := r.1.filepath, displayPath := r.1.display_path, title := r.1.title,
      body := r.1.body, score := normalizeBM25 r.2, source := .fts,
      chunkPos := none })

/-- `DocumentRepository.searchVector`: the three-way join of `vectors_vec`,
`content_vectors` (on the composite key) and `documents` (on the hashic,
keeping `active = 1`), ordered by cosine distance (`dist` is the engine's
`vec_distance_cosine` oracle against the query embedding), limited, mapped to
results with `score = 1 - distance`. -/
def searchVector (docs : List DocRow) (st : VecStore) (dist : List ℚ → ℚ)
    (limit : Nat) : List SearchResult :=
  let rows := st.vec.flatMap (fun v =>
    st.cv.flatMap (fun c =>
      if hashSeq c.hash c.seq = v.hash_seq then
        docs.filterMap (fun d =>
          if d.hash = c.hash ∧ d.active = 1 then
            some (d, c, dist v.embedding)
          else none)
      else []))
  let sorted := rows.insertionSort (fun a b => a.2.2 ≤ b.2.2)
  (sorted.take limit).map (fun r =>
    { file := r.1.filepath, displayPath := r.1.display_path, title := r.1.title,
      body := r.1.body, score := 1 - r.2.2, source := .vec,
      chunkPos := some r.2.1.pos })

/-- C9: both search paths return only documents whose `active` flag is 1 —
every result originates from an active document row; an inactive document is
never returned. -/
theorem search_paths_filter_inactive (docs : List DocRow)
    (ftsScore : DocRow → Option ℚ) (st : VecStore) (dist : List ℚ → ℚ)
    (limit : Nat) :
    (∀ r ∈ searchFTS docs ftsScore limit,
      ∃ d ∈ docs, d.active = 1 ∧ r.file = d.filepath) ∧
    (∀ r ∈ searchVector docs st dist limit,
      ∃ d ∈ docs, d.active = 1 ∧ r.file = d.filepath) := by
  constructor
  · intro r hr
    unfold searchFTS at hr
    rw [List.mem_map] at hr
    obtain ⟨row, hrow, hmap⟩ := hr
    have hmem : row ∈ docs.filterMap (fun d =>
        match ftsScore d with
        | some s => if d.active = 1 then some (d, s) else none
        | none => none) := by
      have h1 := List.mem_of_mem_take hrow
      exact ((List.perm_insertionSort _ _).mem_iff).mp h1
    rw [List.mem_filterMap] at hmem
    obtain ⟨d, hd, hopt⟩ := hmem
    refine ⟨d, hd, ?_, ?_⟩
    · revert hopt
      cases ftsScore d with
      | none => intro h; exact absurd h (by simp)
      | some s =>
        intro h
        by_cases ha : d.active = 1
        · exact ha
        · exact absurd h (by simp [ha])
    · have : row.1 = d := by
        revert hopt
        cases ftsScore d with
        | none => intro h; exact absurd h (by simp)
        | some s =>
          intro h
          by_cases ha : d.active = 1
          · simp [ha] at h
            exact congrArg Prod.fst h.symm
          · exact absurd h (by simp [ha])
      rw [← hmap, ← this]
  · intro r hr
    unfold searchVector at hr
    rw [List.mem_map] at hr
    obtain ⟨row, hrow, hmap⟩ := hr
    have hmem : row ∈ st.vec.flatMap (fun v =>
        st.cv.flatMap (fun c =>
          if hashSeq c.hash c.seq = v.hash_seq then
            docs.filterMap (fun d =>
              if d.hash = c.hash ∧ d.active = 1 then
                some (d, c, dist v.embedding)
              else none)
          else [])) := by
      have h1 := List.mem_of_mem_take hrow
      exact ((List.perm_insertionSort _ _).mem_iff).mp h1
    rw [List.mem_flatMap] at hmem
    obtain ⟨v, _, hmem⟩ := hmem
    rw [List.mem_flatMap] at hmem
    obtain ⟨c, _, hmem⟩ := hmem
    by_cases hk : hashSeq c.hash c.seq = v.hash_seq
    · rw [if_pos hk, List.mem_filterMap] at hmem
      obtain ⟨d, hd, hopt⟩ := hmem
      by_cases ha : d.hash = c.hash ∧ d.active = 1
      · rw [if_pos ha] at hopt
        refine ⟨d, hd, ha.2, ?_⟩
        have : row.1 = d := congrArg Prod.fst (Option.some_injective _ hopt).symm
        rw [← hmap, ← this]
      · rw [if_neg ha] at hopt
        exact absurd hopt (by simp)
    · rw [if_neg hk] at hmem
      exact absurd hmem (by simp)

/-- Sample active document row for the C9 witness. -/
def c9Doc : DocRow := ⟨"f.md", "f", "T", "B", "h", 1⟩

/-- The single result `searchFTS` produces on the C9 sample database. -/
def c9FtsResult : SearchResult := ⟨"f.md", "f", "T", "B", normalizeBM25 (-1), .fts, none⟩

/-- The single result `searchVector` produces on the C9 sample database. -/
def c9VecResult : SearchResult := ⟨"f.md", "f", "T", "B", 1 - 0, .vec, some 0⟩

/-- Sample vector store for the C9 witness. -/
def c9Store : VecStore := ⟨[⟨"h", 0, 0, "m"⟩], [⟨hashSeq "h" 0, [1]⟩]⟩

/-- Witness for C9 on a one-document database exercising both search paths. -/
theorem search_paths_filter_inactive_witness :
    (c9FtsResult ∈ searchFTS [c9Doc] (fun _ => some (-1)) 10 ∧
     c9VecResult ∈ searchVector [c9Doc] c9Store (fun _ => 0) 10) ∧
    ((∃ d ∈ [c9Doc], d.active = 1 ∧ c9FtsResult.file = d.filepath) ∧
     (∃ d ∈ [c9Doc], d.active = 1 ∧ c9VecResult.file = d.filepath)) := by
  have h1 : c9FtsResult ∈ searchFTS [c9Doc] (fun _ => some (-1)) 10 := by
    show c9FtsResult ∈ [c9FtsResult]
    exact List.mem_singleton.mpr rfl
  have h2 : c9VecResult ∈ searchVector [c9Doc] c9Store (fun _ => 0) 10 := by
    show c9VecResult ∈ [c9VecResult]
    exact List.mem_singleton.mpr rfl
  refine ⟨⟨h1, h2⟩, ?_, ?_⟩
  · exact (search_paths_filter_inactive [c9Doc] (fun _ => some (-1)) c9Store
      (fun _ => 0) 10).1 c9FtsResult h1
  · exact (search_paths_filter_inactive [c9Doc] (fun _ => some (-1)) c9Store
      (fun _ => 0) 10).2 c9VecResult h2

/-! ## Lexical query preprocessing (SearchCommand.buildFTS5Query / searchFTS)

Source: src/unnamed/part_003 lines 111-149.  Strings are modelled as
`List Char`. -/

/-- The whitespace class removed by JS `String.prototype.trim` (ASCII part;
exotic Unicode space characters are not modelled). -/
def isJsSpace (c : Char) : Bool :=
  c = ' ' ∨ c = '\t' ∨ c = '\n' ∨ c = '\r' ∨ c = '\x0b' ∨ c = '\x0c'

/-- JS `input.trim()`: strip leading and trailing whitespace. -/
def jsTrim (s : List Char) : List Char :=
  ((s.dropWhile isJsSpace).reverse.dropWhile isJsSpace).reverse

/-- The regex test `/[*"{}]/.test(trimmed)`: does the text contain one of the
four FTS5 operator characters (asterisk, double quote, the two braces)? -/
def hasFTSOperatorChar (s : List Char) : Bool :=
  s.any (fun c => c = '*' ∨ c = '"' ∨ c = '\x7b' ∨ c = '\x7d')

/-- JS word character (`\w` = `[A-Za-z0-9_]`). -/
def isWordChar (c : Char) : Bool :=
  c.isAlpha ∨ c.isDigit ∨ c = '_'

/-- `w` occurs at the head of `s` with a word boundary (`\b`) on both sides;
`prev` is the character immediately preceding `s` in the full text (`none`
at the start of the text). -/
def wordAt (prev : Option Char) (w s : List Char) : Bool :=
  (decide (s.take w.length = w)) &&
  (match prev with | none => true | some c => !(isWordChar c)) &&
  (match (s.drop w.length).head? with | none => true | some c => !(isWordChar c))

/-- One step of the scan for `/\b(AND|OR|NOT)\b/`. -/
def hasOpWordAux : Option Char → List Char → Bool
  | _, [] => false
  | prev, c :: rest =>
    (wordAt prev "AND".data (c :: rest) ∨ wordAt prev "OR".data (c :: rest) ∨
     wordAt prev "NOT".data (c :: rest)) ∨
    hasOpWordAux (some c) rest

/-- The regex test `/\b(AND|OR|NOT)\b/.test(trimmed)`. -/
def hasOpWord (s : List Char) : Bool :=
  hasOpWordAux none s

example : hasOpWord "X AND Y".data = true := by decide
example : hasOpWord "ANDROID".data = false := by decide
example : hasOpWord "NOT".data = true := by decide
example : hasOpWord "docker containers".data = false := by decide

/-- `trimmed.replace(/"/g, double-quote twice)`. -/
def escapeQuotes : List Char → List Char
  | [] => []
  | c :: rest => if c = '"' then '"' :: '"' :: escapeQuotes rest else c :: escapeQuotes rest

/-- `SearchCommand.buildFTS5Query` from the source: `null` for blank input;
input with FTS5 operator characters or an `AND`/`OR`/`NOT` word is passed
through trimmed; anything else is quoted as an exact phrase with embedded
quotes doubled. -/
def buildFTS5Query (input : List Char) : Option (List Char) :=
  let trimmed := jsTrim input
  if trimmed = [] then none
  else if hasFTSOperatorChar trimmed ∨ hasOpWord trimmed then some trimmed
  else some ('"' :: escapeQuotes trimmed ++ ['"'])

/-- `SearchCommand.searchFTS` guard from the source: a `null` built query
returns `[]` without touching the engine; otherwise the built query is
handed to the prepared statement (`engine` oracle, taking the query and the
limit) and rows are mapped to normalized results.  The boolean records
whether the engine was queried. -/
def searchFTSCommand (engine : List Char → Nat → List (DocRow × ℚ))
    (query : List Char) (limit : Nat) : List SearchResult × Bool :=
  match buildFTS5Query query with
  | none => ([], false)
  | some fq =>
    ((engine fq limit).map (fun r =>
      { file := r.1.filepath, displayPath := r.1.display_path, title := r.1.title,
        body := r.1.body, score := normalizeBM25 r.2, source := .fts,
        chunkPos := none }), true)

example : buildFTS5Query "docker containers".data =
    some ('"' :: "docker containers".data ++ ['"']) := by decide
example : buildFTS5Query "  ".data = none := by decide
example : buildFTS5Query "a OR b".data = some "a OR b".data := by decide

/-- C10 counterexample: input that carries an FTS5 operator is passed to the
engine *trimmed*, not unchanged. -/
theorem buildFTS5Query_claim_false :
    buildFTS5Query " a* ".data = some "a*".data ∧
    "a*".data ≠ " a* ".data := by
  constructor
  · decide
  · decide

/-- C10 (amended): blank input (empty or all whitespace) builds no query and
`searchFTS` returns `[]` without querying the engine; input whose trim has
none of the characters `*`, double quote, braces, and no `AND`/`OR`/`NOT`
word, is sent as the trimmed input wrapped in double quotes with embedded
quotes doubled; any other input is sent trimmed but otherwise unchanged. -/
theorem buildFTS5Query_spec (input : List Char)
    (engine : List Char → Nat → List (DocRow × ℚ)) (limit : Nat) :
    (input.all isJsSpace = true →
      buildFTS5Query input = none ∧
      searchFTSCommand engine input limit = ([], false)) ∧
    (jsTrim input ≠ [] → hasFTSOperatorChar (jsTrim input) = false →
      hasOpWord (jsTrim input) = false →
      buildFTS5Query input = some ('"' :: escapeQuotes (jsTrim input) ++ ['"'])) ∧
    (hasFTSOperatorChar (jsTrim input) = true ∨ hasOpWord (jsTrim input) = true →
      buildFTS5Query input = some (jsTrim input)) := by
  refine ⟨?_, ?_, ?_⟩
  · intro hall
    have hnil : jsTrim input = [] := by
      have h1 : input.dropWhile isJsSpace = [] := by
        rw [List.dropWhile_eq_nil_iff]
        intro x hx
        exact List.all_eq_true.mp hall x hx
      simp [jsTrim, h1]
    constructor
    · simp [buildFTS5Query, hnil]
    · simp [searchFTSCommand, buildFTS5Query, hnil]
  · intro hne hchar hword
    simp [buildFTS5Query, hne, hchar, hword]
  · intro hop
    have hne : jsTrim input ≠ [] := by
      rcases hop with h | h
      · intro hnil
        rw [hnil] at h
        simp [hasFTSOperatorChar] at h
      · intro hnil
        rw [hnil] at h
        simp [hasOpWord, hasOpWordAux] at h
    rcases hop with h | h
    · simp [buildFTS5Query, hne, h]
    · simp [buildFTS5Query, hne, h]

/-- Witness for C10 at blank, plain-phrase and operator-bearing inputs. -/
theorem buildFTS5Query_spec_witness :
    ("  ".data.all isJsSpace = true ∧
      (buildFTS5Query "  ".data = none ∧
       searchFTSCommand (fun _ _ => []) "  ".data 10 = ([], false))) ∧
    (buildFTS5Query "hello world".data =
      some ('"' :: escapeQuotes (jsTrim "hello world".data) ++ ['"'])) ∧
    (buildFTS5Query " a* ".data = some (jsTrim " a* ".data)) :=
  ⟨⟨by decide, (buildFTS5Query_spec "  ".data (fun _ _ => []) 10).1 (by decide)⟩,
   (buildFTS5Query_spec "hello world".data (fun _ _ => []) 10).2.1
     (by decide) (by decide) (by decide),
   (buildFTS5Query_spec " a* ".data (fun _ _ => []) 10).2.2 (Or.inl (by decide))⟩

/-! ## Vector store operations (VectorRepository, embedDocument)

Source: src/src/database/repositories/vectors.ts; `embedDocument` itself
lives in src/services/embedding.ts which is absent from the sources (only its
tests are) and is modelled from the spec.  The composite key `hash + '_' +
decimal seq` is injective as long as hashes contain no underscore (they are
hex digests); the theorems below carry that as an explicit hypothesis. -/

lemma digitChar_inj_lt : ∀ a < 10, ∀ b < 10, Nat.digitChar a = Nat.digitChar b → a = b := by
  decide

lemma map_digitChar_inj :
    ∀ (l1 l2 : List Nat), (∀ x ∈ l1, x < 10) → (∀ x ∈ l2, x < 10) →
      l1.map Nat.digitChar = l2.map Nat.digitChar → l1 = l2 := by
  intro l1
  induction l1 with
  | nil =>
    intro l2 _ _ h
    cases l2 with
    | nil => rfl
    | cons b t => simp at h
  | cons a t ih =>
    intro l2 h1 h2 h
    cases l2 with
    | nil => simp at h
    | cons b t2 =>
      simp only [List.map_cons, List.cons.injEq] at h
      have ha : a = b := digitChar_inj_lt a (h1 a (by simp)) b (h2 b (by simp)) h.1
      have ht : t = t2 := ih t2 (fun x hx => h1 x (by simp [hx]))
        (fun x hx => h2 x (by simp [hx])) h.2
      rw [ha, ht]

lemma natToChars_inj {m n : Nat} (h : natToChars m = natToChars n) : m = n := by
  unfold natToChars at h
  by_cases hm : m = 0 <;> by_cases hn : n = 0
  · omega
  · rw [if_pos hm, if_neg hn] at h
    exfalso
    have hd : [0] = (Nat.digits 10 n).reverse := by
      apply map_digitChar_inj
      · intro x hx; simp at hx; omega
      · intro x hx
        rw [List.mem_reverse] at hx
        exact Nat.digits_lt_base (by norm_num) hx
      · simpa using h
    have : Nat.digits 10 n = [0] := by
      have := congrArg List.reverse hd
      simpa using this.symm
    have hn' : n = Nat.ofDigits 10 (Nat.digits 10 n) := (Nat.ofDigits_digits 10 n).symm
    rw [this] at hn'
    simp [Nat.ofDigits] at hn'
    exact hn hn'
  · rw [if_neg hm, if_pos hn] at h
    exfalso
    have hd : (Nat.digits 10 m).reverse = [0] := by
      apply map_digitChar_inj
      · intro x hx
        rw [List.mem_reverse] at hx
        exact Nat.digits_lt_base (by norm_num) hx
      · intro x hx; simp at hx; omega
      · simpa using h
    have : Nat.digits 10 m = [0] := by
      have := congrArg List.reverse hd
      simpa using this
    have hm' : m = Nat.ofDigits 10 (Nat.digits 10 m) := (Nat.ofDigits_digits 10 m).symm
    rw [this] at hm'
    simp [Nat.ofDigits] at hm'
    exact hm hm'
  · rw [if_neg hm, if_neg hn] at h
    have hd : (Nat.digits 10 m).reverse = (Nat.digits 10 n).reverse := by
      apply map_digitChar_inj
      · intro x hx
        rw [List.mem_reverse] at hx
        exact Nat.digits_lt_base (by norm_num) hx
      · intro x hx
        rw [List.mem_reverse] at hx
        exact Nat.digits_lt_base (by norm_num) hx
      · exact h
    have hdig : Nat.digits 10 m = Nat.digits 10 n := by
      have := congrArg List.reverse hd
      simpa using this
    calc m = Nat.ofDigits 10 (Nat.digits 10 m) := (Nat.ofDigits_digits 10 m).symm
    _ = Nat.ofDigits 10 (Nat.digits 10 n) := by rw [hdig]
    _ = n := Nat.ofDigits_digits 10 n

lemma append_underscore_inj :
    ∀ (l1 l2 r1 r2 : List Char), '_' ∉ l1 → '_' ∉ l2 →
      l1 ++ '_' :: r1 = l2 ++ '_' :: r2 → l1 = l2 ∧ r1 = r2 := by
  intro l1
  induction l1 with
  | nil =>
    intro l2 r1 r2 _ h2 h
    cases l2 with
    | nil => simpa using h
    | cons c t =>
      exfalso
      simp only [List.nil_append, List.cons_append, List.cons.injEq] at h
      exact h2 (List.mem_cons.mpr (Or.inl h.1))
  | cons c t ih =>
    intro l2 r1 r2 h1 h2 h
    cases l2 with
    | nil =>
      exfalso
      simp only [List.nil_append, List.cons_append, List.cons.injEq] at h
      exact h1 (List.mem_cons.mpr (Or.inl h.1.symm))
    | cons c' t' =>
      simp only [List.cons_append, List.cons.injEq] at h
      obtain ⟨hc, hrest⟩ := h
      have := ih t' r1 r2 (fun hm => h1 (by simp [hm])) (fun hm => h2 (by simp [hm])) hrest
      exact ⟨by rw [hc, this.1], this.2⟩

lemma hashSeq_inj {h1 h2 : String} {s1 s2 : Nat}
    (u1 : '_' ∉ h1.data) (u2 : '_' ∉ h2.data)
    (h : hashSeq h1 s1 = hashSeq h2 s2) : h1 = h2 ∧ s1 = s2 := by
  unfold hashSeq at h
  obtain ⟨hd, hs⟩ := append_underscore_inj h1.data h2.data _ _ u1 u2 h
  constructor
  · cases h1
    cases h2
    exact congrArg String.mk (by simpa using hd)
  · exact natToChars_inj hs

/-- A row returned by `VectorRepository.findByHash`
(`SELECT hash, seq, pos, embedding`). -/
structure VecHit where
  hash : String
  seq : Nat
  pos : Nat
  embedding : List ℚ
  deriving DecidableEq

/-- `VectorRepository.insert`: one row into `content_vectors` and one row
into `vectors_vec` under the composite key. -/
def vecInsert (st : VecStore) (hash : String) (seq pos : Nat)
    (embedding : List ℚ) (model : String) : VecStore :=
  { cv := st.cv ++ [⟨hash, seq, pos, model⟩],
    vec := st.vec ++ [⟨hashSeq hash seq, embedding⟩] }

/-- `VectorRepository.deleteByHash`: collect the `seq` values stored for the
hash, delete the `vectors_vec` row of each composite key, then delete the
`content_vectors` rows of the hash. -/
def deleteByHash (st : VecStore) (hash : String) : VecStore :=
  let seqs := (st.cv.filter (fun c => decide (c.hash = hash))).map CVRow.seq
  { cv := st.cv.filter (fun c => decide (c.hash ≠ hash)),
    vec := st.vec.filter (fun v => decide (v.hash_seq ∉ seqs.map (hashSeq hash))) }

/-- `VectorRepository.findByHash`: the join of `content_vectors` and
`vectors_vec` on the composite key (`hash_seq` is the table's PRIMARY KEY, so
at most one row matches — modelled by `find?`), filtered by hash, ordered by
`seq`. -/
def findByHash (st : VecStore) (hash : String) : List VecHit :=
  ((st.cv.filter (fun c => decide (c.hash = hash))).filterMap (fun c =>
    (st.vec.find? (fun v => decide (v.hash_seq = hashSeq c.hash c.seq))).map
      (fun v => ⟨c.hash, c.seq, c.pos, v.embedding⟩))).insertionSort
    (fun a b => a.seq ≤ b.seq)

/-- A chunk record handed to `embedDocument` (text, character position,
optional title). -/
structure EmbedChunk where
  text : String
  pos : Nat
  title : Option String
  deriving DecidableEq

/-- Modelled from the spec: `embedDocument` (src/services/embedding.ts,
absent from the sources) — first delete every stored vector of the
fingerprint, then embed chunk `i` (the `embed` oracle stands for the
`embedText` model call) and insert it with sequence number `i`. -/
def embedDocument (embed : EmbedChunk → List ℚ) (st : VecStore) (hash : String)
    (chunks : List EmbedChunk) (model : String) : VecStore :=
  chunks.enum.foldl
    (fun acc ic => vecInsert acc hash ic.1 ic.2.pos (embed ic.2) model)
    (deleteByHash st hash)

/-- Store well-formedness, decidably: every `vectors_vec` row is keyed by
some `content_vectors` row (no orphan vector rows). -/
def storeWFb (st : VecStore) : Bool :=
  st.vec.all (fun v => st.cv.any (fun c => decide (v.hash_seq = hashSeq c.hash c.seq)))

/-- All stored hashes are underscore-free (they are hex digests). -/
def hashesCleanb (st : VecStore) : Bool :=
  st.cv.all (fun c => decide ('_' ∉ c.hash.data))

lemma foldl_vecInsert (h : String) (model : String) (embed : EmbedChunk → List ℚ)
    (pairs : List (Nat × EmbedChunk)) :
    ∀ st0 : VecStore,
      pairs.foldl (fun acc ic => vecInsert acc h ic.1 ic.2.pos (embed ic.2) model) st0 =
        ⟨st0.cv ++ pairs.map (fun ic => ⟨h, ic.1, ic.2.pos, model⟩),
         st0.vec ++ pairs.map (fun ic => ⟨hashSeq h ic.1, embed ic.2⟩)⟩ := by
  induction pairs with
  | nil => intro st0; simp
  | cons p rest ih =>
    intro st0
    rw [List.foldl_cons, ih]
    simp [vecInsert]

lemma deleteByHash_cv_ne (st : VecStore) (h : String) :
    ∀ c ∈ (deleteByHash st h).cv, c.hash ≠ h := by
  intro c hc
  unfold deleteByHash at hc
  have := List.of_mem_filter hc
  simpa using this

lemma deleteByHash_vec_no_key (st : VecStore) (h : String)
    (hwf : storeWFb st = true) (hcl : hashesCleanb st = true)
    (hh : '_' ∉ h.data) :
    ∀ v ∈ (deleteByHash st h).vec, ∀ s, v.hash_seq ≠ hashSeq h s := by
  intro v hv s hkey
  unfold deleteByHash at hv
  have hmem := List.mem_of_mem_filter hv
  have hpred := List.of_mem_filter hv
  rw [decide_eq_true_eq] at hpred
  rw [storeWFb, List.all_eq_true] at hwf
  have := hwf v hmem
  rw [List.any_eq_true] at this
  obtain ⟨c, hc, hcc⟩ := this
  rw [decide_eq_true_eq] at hcc
  rw [hashesCleanb, List.all_eq_true] at hcl
  have hcu : '_' ∉ c.hash.data := by
    have := hcl c hc
    rwa [decide_eq_true_eq] at this
  have hchash : c.hash = h := by
    have := hashSeq_inj hcu hh (hcc.symm.trans hkey)
    exact this.1
  apply hpred
  rw [hcc]
  apply List.mem_map.mpr
  refine ⟨c.seq, ?_, by rw [hchash]⟩
  apply List.mem_map.mpr
  refine ⟨c, ?_, rfl⟩
  apply List.mem_filter.mpr
  exact ⟨hc, by simp [hchash]⟩

lemma find?_append_left_none {α} (p : α → Bool) (l1 l2 : List α)
    (h : ∀ a ∈ l1, p a = false) :
    (l1 ++ l2).find? p = l2.find? p := by
  induction l1 with
  | nil => simp
  | cons a t ih =>
    have ha : ¬ p a = true := by simp [h a (by simp)]
    rw [List.cons_append, List.find?_cons_of_neg _ ha,
      ih (fun x hx => h x (by simp [hx]))]

lemma filterMap_congr_some {α β} {l : List α} {f : α → Option β} {g : α → β}
    (h : ∀ x ∈ l, f x = some (g x)) : l.filterMap f = l.map g := by
  induction l with
  | nil => rfl
  | cons a t ih =>
    rw [List.filterMap_cons, h a (by simp), List.map_cons,
      ih (fun x hx => h x (by simp [hx]))]

lemma enumFrom_pairwise_fst_le {α} (l : List α) :
    ∀ k : Nat, (l.enumFrom k).Pairwise (fun a b => a.1 ≤ b.1) := by
  induction l with
  | nil => intro k; simp
  | cons d rest ih =>
    intro k
    refine List.Pairwise.cons ?_ (ih (k + 1))
    intro x hx
    obtain ⟨i, a⟩ := x
    have := (List.mk_mem_enumFrom_iff_le_and_getElem?_sub.mp hx).1
    simpa using by omega

lemma find?_enumFrom_vec (h : String) (hh : '_' ∉ h.data)
    (embed : EmbedChunk → List ℚ) (chunks : List EmbedChunk) :
    ∀ (k i : Nat) (c : EmbedChunk), (i, c) ∈ chunks.enumFrom k →
      ((chunks.enumFrom k).map
          (fun jc => VecRow.mk (hashSeq h jc.1) (embed jc.2))).find?
        (fun v => decide (v.hash_seq = hashSeq h i)) =
        some ⟨hashSeq h i, embed c⟩ := by
  induction chunks with
  | nil => intro k i c hic; simp at hic
  | cons d rest ih =>
    intro k i c hic
    rw [show (d :: rest).enumFrom k = (k, d) :: rest.enumFrom (k + 1) from rfl]
    rcases List.mem_cons.mp hic with heq | htail
    · have h1 : i = k := congrArg Prod.fst heq
      have h2 : c = d := congrArg Prod.snd heq
      subst h1
      subst h2
      rw [List.map_cons, List.find?_cons_of_pos _ (by simp)]
    · have hik : k + 1 ≤ i :=
        (List.mk_mem_enumFrom_iff_le_and_getElem?_sub.mp htail).1
      rw [List.map_cons, List.find?_cons_of_neg, ih (k + 1) i c htail]
      simp only [decide_eq_true_eq]
      intro hk
      have := (hashSeq_inj hh hh hk).2
      omega

/-- C7: re-embedding replaces a fingerprint's vectors atomically from the
caller's perspective — `embedDocument` deletes every stored vector for the
hash before inserting the new ones, so a lookup of the hash afterwards
returns exactly the vectors of the latest chunk list, with sequence numbers
`0..n-1`, and never a mixed old/new set. -/
theorem embedDocument_atomic_replace (embed : EmbedChunk → List ℚ)
    (st : VecStore) (h : String) (chunks : List EmbedChunk) (model : String)
    (hwf : storeWFb st = true) (hcl : hashesCleanb st = true)
    (hh : '_' ∉ h.data) :
    findByHash (embedDocument embed st h chunks model) h =
      chunks.enum.map (fun ic => ⟨h, ic.1, ic.2.pos, embed ic.2⟩) ∧
    (findByHash (embedDocument embed st h chunks model) h).map VecHit.seq =
      List.range chunks.length := by
  have hstep : embedDocument embed st h chunks model =
      ⟨(deleteByHash st h).cv ++
          chunks.enum.map (fun ic => CVRow.mk h ic.1 ic.2.pos model),
        (deleteByHash st h).vec ++
          chunks.enum.map (fun ic => VecRow.mk (hashSeq h ic.1) (embed ic.2))⟩ := by
    rw [embedDocument, foldl_vecInsert]
  have hfilter : (((deleteByHash st h).cv ++
        chunks.enum.map (fun ic => CVRow.mk h ic.1 ic.2.pos model)).filter
          (fun c => decide (c.hash = h))) =
      chunks.enum.map (fun ic => CVRow.mk h ic.1 ic.2.pos model) := by
    rw [List.filter_append]
    have h1 : (deleteByHash st h).cv.filter (fun c => decide (c.hash = h)) = [] := by
      rw [List.filter_eq_nil_iff]
      intro c hc
      simp [deleteByHash_cv_ne st h c hc]
    have h2 : ((chunks.enum.map (fun ic => CVRow.mk h ic.1 ic.2.pos model)).filter
          (fun c => decide (c.hash = h))) =
        chunks.enum.map (fun ic => CVRow.mk h ic.1 ic.2.pos model) := by
      rw [List.filter_eq_self]
      intro c hc
      obtain ⟨ic, _, rfl⟩ := List.mem_map.mp hc
      simp
    rw [h1, h2, List.nil_append]
  have hfind : ∀ (i : Nat) (c : EmbedChunk), (i, c) ∈ chunks.enum →
      ((chunks.enum.map
          (fun jc => VecRow.mk (hashSeq h jc.1) (embed jc.2))).find?
        (fun v => decide (v.hash_seq = hashSeq h i))) =
        some ⟨hashSeq h i, embed c⟩ :=
    fun i c hic => find?_enumFrom_vec h hh embed chunks 0 i c hic
  have hpoint : ∀ ic ∈ chunks.enum,
      (((deleteByHash st h).vec ++
          chunks.enum.map (fun jc => VecRow.mk (hashSeq h jc.1) (embed jc.2))).find?
            (fun v => decide (v.hash_seq = hashSeq h ic.1))).map
          (fun v => VecHit.mk h ic.1 ic.2.pos v.embedding) =
        some (VecHit.mk h ic.1 ic.2.pos (embed ic.2)) := by
    intro ic hic
    obtain ⟨i, c⟩ := ic
    dsimp only
    have hleft : ∀ v ∈ (deleteByHash st h).vec,
        (fun v => decide (v.hash_seq = hashSeq h i)) v = false := by
      intro v hv
      simp only [decide_eq_false_iff_not]
      exact deleteByHash_vec_no_key st h hwf hcl hh v hv i
    rw [find?_append_left_none _ _ _ hleft, hfind i c hic]
    rfl
  have hsorted : (chunks.enum.map
        (fun ic => VecHit.mk h ic.1 ic.2.pos (embed ic.2))).Sorted
      (fun a b => a.seq ≤ b.seq) := by
    rw [List.Sorted, List.pairwise_map]
    exact enumFrom_pairwise_fst_le chunks 0
  have hmain : findByHash (embedDocument embed st h chunks model) h =
      chunks.enum.map (fun ic => VecHit.mk h ic.1 ic.2.pos (embed ic.2)) := by
    rw [hstep, findByHash]
    dsimp only
    rw [hfilter]
    refine Eq.trans (congrArg (List.insertionSort _) ?_) hsorted.insertionSort_eq
    refine Eq.trans (List.filterMap_map _ _ _) ?_
    exact filterMap_congr_some hpoint
  refine ⟨hmain, ?_⟩
  rw [hmain, List.map_map]
  exact List.enum_map_fst chunks

/-- Witness for C7: re-embedding one chunk into an empty store. -/
theorem embedDocument_atomic_replace_witness :
    (storeWFb ⟨[], []⟩ = true ∧ hashesCleanb ⟨[], []⟩ = true ∧ '_' ∉ "h".data) ∧
    (findByHash (embedDocument (fun _ => [1]) ⟨[], []⟩ "h" [⟨"t", 0, none⟩] "m") "h" =
        [⟨"h", 0, 0, [1]⟩] ∧
      (findByHash (embedDocument (fun _ => [1]) ⟨[], []⟩ "h"
          [⟨"t", 0, none⟩] "m") "h").map VecHit.seq = List.range 1) :=
  ⟨⟨by decide, by decide, by decide⟩,
    embedDocument_atomic_replace (fun _ => [1]) ⟨[], []⟩ "h" [⟨"t", 0, none⟩] "m"
      (by decide) (by decide) (by decide)⟩

/-! ## Incremental Indexer (indexFiles)

`indexFiles` lives in `src/services/indexing.ts`, absent from the sources —
only its tests (concatenated after src/src/utils/hash.ts) are.  The diff is
modelled from the spec (§4.8).  File enumeration is an external collaborator;
it enters as the list `files` of (path, fingerprint) snapshot pairs, each
enumerated path listed once. -/

/-- A document row as the indexer sees it: path identity, content
fingerprint, active flag. -/
structure IdxDoc where
  path : String
  hash : String
  active : Bool
  deriving DecidableEq

/-- The aggregate counts reported by `indexFiles`. -/
structure IndexStats where
  indexed : Nat
  updated : Nat
  unchanged : Nat
  removed : Nat
  deriving DecidableEq

/-- Modelled from the spec: processing of one enumerated file
(path, fingerprint) — insert when no document exists at the path (counts
*indexed*), replace the fingerprint when it differs (counts *updated*), do
nothing when it matches (counts *unchanged*). -/
def stepFile (st : List IdxDoc × IndexStats) (f : String × String) :
    List IdxDoc × IndexStats :=
  match st.1.find? (fun d => decide (d.path = f.1)) with
  | none => (⟨f.1, f.2, true⟩ :: st.1, { st.2 with indexed := st.2.indexed + 1 })
  | some d =>
    if d.hash = f.2 then (st.1, { st.2 with unchanged := st.2.unchanged + 1 })
    else (st.1.map (fun e => if e.path = f.1 then { e with hash := f.2 } else e),
      { st.2 with updated := st.2.updated + 1 })

/-- Modelled from the spec: after enumeration, every previously active
document whose path was not observed is deactivated (counts *removed*). -/
def removeMissing (docs : List IdxDoc) (paths : List String) :
    List IdxDoc × Nat :=
  (docs.map (fun d => if d.active ∧ d.path ∉ paths then { d with active := false } else d),
   (docs.filter (fun d => decide (d.active ∧ d.path ∉ paths))).length)

/-- Modelled from the spec: `indexFiles` — fold the per-file diff over the
enumerated snapshot starting from zero counts, then deactivate unobserved
documents, reporting their number as `removed`. -/
def indexFiles (docs : List IdxDoc) (files : List (String × String)) :
    List IdxDoc × IndexStats :=
  ((removeMissing (files.foldl stepFile (docs, ⟨0, 0, 0, 0⟩)).1 (files.map Prod.fst)).1,
   { (files.foldl stepFile (docs, ⟨0, 0, 0, 0⟩)).2 with
      removed := (removeMissing (files.foldl stepFile (docs, ⟨0, 0, 0, 0⟩)).1
        (files.map Prod.fst)).2 })

/-- All documents the fold or removal phases produce keep their path. -/
lemma stepFile_find_self (docs : List IdxDoc) (s : IndexStats) (f : String × String) :
    ∃ d, (stepFile (docs, s) f).1.find? (fun e => decide (e.path = f.1)) = some d ∧
      d.hash = f.2 := by
  unfold stepFile
  cases hfind : docs.find? (fun d => decide (d.path = f.1)) with
  | none =>
    refine ⟨⟨f.1, f.2, true⟩, ?_, rfl⟩
    simp [List.find?_cons_of_pos]
  | some d =>
    dsimp only
    by_cases hh : d.hash = f.2
    · rw [if_pos hh]
      exact ⟨d, hfind, hh⟩
    · rw [if_neg hh]
      refine ⟨{ d with hash := f.2 }, ?_, rfl⟩
      have hpath : (fun (e : IdxDoc) => decide (e.path = f.1)) ∘
          (fun (e : IdxDoc) => if e.path = f.1 then { e with hash := f.2 } else e) =
          (fun (e : IdxDoc) => decide (e.path = f.1)) := by
        funext e
        by_cases hp : e.path = f.1
        · simp [hp]
        · simp [hp]
      rw [List.find?_map, hpath, hfind]
      have hd : d.path = f.1 := by
        have := List.find?_some hfind
        simpa using this
      simp [hd]

lemma stepFile_find_other (docs : List IdxDoc) (s : IndexStats)
    (f : String × String) (q : String) (hne : q ≠ f.1) :
    (stepFile (docs, s) f).1.find? (fun e => decide (e.path = q)) =
      docs.find? (fun e => decide (e.path = q)) := by
  unfold stepFile
  cases hfind : docs.find? (fun d => decide (d.path = f.1)) with
  | none =>
    dsimp only
    exact List.find?_cons_of_neg docs (by
      simp only [decide_eq_true_eq]
      exact fun h => hne h.symm)
  | some d =>
    dsimp only
    by_cases hh : d.hash = f.2
    · rw [if_pos hh]
    · rw [if_neg hh]
      have hpath : (fun (e : IdxDoc) => decide (e.path = q)) ∘
          (fun (e : IdxDoc) => if e.path = f.1 then { e with hash := f.2 } else e) =
          (fun (e : IdxDoc) => decide (e.path = q)) := by
        funext e
        by_cases hp : e.path = f.1
        · simp [hp, hne.symm]
        · simp [hp]
      rw [List.find?_map, hpath]
      cases hq : docs.find? (fun e => decide (e.path = q)) with
      | none => rfl
      | some d0 =>
        have hd0 : d0.path = q := by
          have := List.find?_some hq
          simpa using this
        simp [Option.map_some, hd0, hne]

example : (indexFiles [] [("a", "h1")]).2.indexed = 1 := by decide
example : (indexFiles [⟨"a", "h1", true⟩] [("a", "h2")]).2.updated = 1 := by decide
example : (indexFiles [⟨"a", "h1", true⟩] []).2.removed = 1 := by decide
example : (indexFiles [⟨"b", "h2", true⟩] [("a", "h1"), ("b", "h2")]).2 =
    ⟨1, 0, 1, 0⟩ := by decide

/-- Every enumerated file is recorded with its snapshot fingerprint. -/
def GoodAll (docs : List IdxDoc) (files : List (String × String)) : Prop :=
  ∀ f ∈ files, ∃ d, docs.find? (fun e => decide (e.path = f.1)) = some d ∧ d.hash = f.2

lemma fold_find_preserved :
    ∀ (rest : List (String × String)) (q : String), q ∉ rest.map Prod.fst →
      ∀ (docs : List IdxDoc) (s : IndexStats),
        (rest.foldl stepFile (docs, s)).1.find? (fun e => decide (e.path = q)) =
          docs.find? (fun e => decide (e.path = q)) := by
  intro rest
  induction rest with
  | nil => intro q _ docs s; rfl
  | cons g rest' ih =>
    intro q hq docs s
    have hqg : q ≠ g.1 := fun h => hq (by simp [h])
    have hrest : q ∉ rest'.map Prod.fst := fun h => hq (by simp [h])
    rw [List.foldl_cons]
    cases hsf : stepFile (docs, s) g with
    | mk docs' s' =>
      rw [ih q hrest docs' s']
      have := stepFile_find_other docs s g q hqg
      rw [hsf] at this
      exact this

lemma fold_good :
    ∀ (files : List (String × String)), (files.map Prod.fst).Nodup →
      ∀ (docs : List IdxDoc) (s : IndexStats),
        GoodAll (files.foldl stepFile (docs, s)).1 files := by
  intro files
  induction files with
  | nil => intro _ docs s f hf; exact absurd hf (by simp)
  | cons g rest ih =>
    intro hnd docs s f hf
    rw [List.map_cons, List.nodup_cons] at hnd
    obtain ⟨hg, hnd'⟩ := hnd
    rw [List.foldl_cons]
    cases hsf : stepFile (docs, s) g with
    | mk docs' s' =>
      rcases List.mem_cons.mp hf with rfl | hmem
      · have hpres := fold_find_preserved rest f.1 hg docs' s'
        rw [hpres]
        have hself := stepFile_find_self docs s f
        rw [hsf] at hself
        exact hself
      · exact ih hnd' docs' s' f hmem

lemma removeMissing_good (docs : List IdxDoc) (paths : List String)
    (files : List (String × String)) (h : GoodAll docs files) :
    GoodAll (removeMissing docs paths).1 files := by
  intro f hf
  obtain ⟨d, hd, hh⟩ := h f hf
  refine ⟨if d.active ∧ d.path ∉ paths then { d with active := false } else d, ?_, ?_⟩
  · unfold removeMissing
    dsimp only
    have hpath : (fun (e : IdxDoc) => decide (e.path = f.1)) ∘
        (fun (e : IdxDoc) =>
          if e.active ∧ e.path ∉ paths then { e with active := false } else e) =
        (fun (e : IdxDoc) => decide (e.path = f.1)) := by
      funext e
      by_cases hc : e.active ∧ e.path ∉ paths
      · simp [hc]
      · simp [hc]
    rw [List.find?_map, hpath, hd]
    rfl
  · by_cases hc : d.active ∧ d.path ∉ paths
    · simpa [hc] using hh
    · simpa [hc] using hh

lemma removeMissing_active_subset (docs : List IdxDoc) (paths : List String) :
    ∀ d ∈ (removeMissing docs paths).1, d.active = true → d.path ∈ paths := by
  intro d hd hact
  unfold removeMissing at hd
  dsimp only at hd
  obtain ⟨d0, _, rfl⟩ := List.mem_map.mp hd
  by_cases hc : d0.active ∧ d0.path ∉ paths
  · rw [if_pos hc] at hact
    simp at hact
  · rw [if_neg hc] at hact ⊢
    by_contra hnp
    exact hc ⟨by simp [hact], hnp⟩

lemma fold_unchanged :
    ∀ (files : List (String × String)) (docs : List IdxDoc) (s : IndexStats),
      GoodAll docs files →
      files.foldl stepFile (docs, s) =
        (docs, { s with unchanged := s.unchanged + files.length }) := by
  intro files
  induction files with
  | nil =>
    intro docs s _
    cases s
    simp
  | cons f rest ih =>
    intro docs s hgood
    obtain ⟨d, hd, hh⟩ := hgood f (by simp)
    rw [List.foldl_cons]
    have hstep : stepFile (docs, s) f = (docs, { s with unchanged := s.unchanged + 1 }) := by
      unfold stepFile
      dsimp only
      rw [hd]
      dsimp only
      rw [if_pos hh]
    rw [hstep, ih docs _ (fun f' hf' => hgood f' (List.mem_cons_of_mem f hf'))]
    cases s
    simp
    omega

/-- C6: `indexFiles` is idempotent — a second run on the unchanged snapshot
reports zero indexed, zero updated, zero removed, and every file as
unchanged. -/
theorem indexFiles_idempotent (docs : List IdxDoc)
    (files : List (String × String)) (hnd : (files.map Prod.fst).Nodup) :
    (indexFiles (indexFiles docs files).1 files).2.indexed = 0 ∧
    (indexFiles (indexFiles docs files).1 files).2.updated = 0 ∧
    (indexFiles (indexFiles docs files).1 files).2.removed = 0 ∧
    (indexFiles (indexFiles docs files).1 files).2.unchanged = files.length := by
  have hgood : GoodAll (indexFiles docs files).1 files := by
    rw [indexFiles]
    exact removeMissing_good _ _ _ (fold_good files hnd docs ⟨0, 0, 0, 0⟩)
  have hactive : ∀ d ∈ (indexFiles docs files).1, d.active = true →
      d.path ∈ files.map Prod.fst := by
    rw [indexFiles]
    exact removeMissing_active_subset _ _
  have hrem : (removeMissing (indexFiles docs files).1 (files.map Prod.fst)).2 = 0 := by
    unfold removeMissing
    dsimp only
    have hfil : (indexFiles docs files).1.filter
        (fun d => decide (d.active ∧ d.path ∉ files.map Prod.fst)) = [] := by
      rw [List.filter_eq_nil_iff]
      intro d hd
      simp only [decide_eq_true_eq]
      rintro ⟨ha, hnp⟩
      exact hnp (hactive d hd ha)
    rw [hfil]
    rfl
  rw [indexFiles, fold_unchanged files (indexFiles docs files).1 ⟨0, 0, 0, 0⟩ hgood]
  dsimp only
  rw [hrem]
  refine ⟨rfl, rfl, rfl, ?_⟩
  omega

/-- Witness for C6 on a fresh two-file snapshot. -/
theorem indexFiles_idempotent_witness :
    ([("a.md", "h1"), ("b.md", "h2")].map Prod.fst).Nodup ∧
    ((indexFiles (indexFiles [] [("a.md", "h1"), ("b.md", "h2")]).1
        [("a.md", "h1"), ("b.md", "h2")]).2.indexed = 0 ∧
     (indexFiles (indexFiles [] [("a.md", "h1"), ("b.md", "h2")]).1
        [("a.md", "h1"), ("b.md", "h2")]).2.updated = 0 ∧
     (indexFiles (indexFiles [] [("a.md", "h1"), ("b.md", "h2")]).1
        [("a.md", "h1"), ("b.md", "h2")]).2.removed = 0 ∧
     (indexFiles (indexFiles [] [("a.md", "h1"), ("b.md", "h2")]).1
        [("a.md", "h1"), ("b.md", "h2")]).2.unchanged =
       [("a.md", "h1"), ("b.md", "h2")].length) :=
  ⟨by decide, indexFiles_idempotent [] [("a.md", "h1"), ("b.md", "h2")] (by decide)⟩

end QMD
